import Mathlib

/-!
Verification of the concolic test-input generation engine
(`concolic_engine.py`): predicate model, constraint extractor,
path enumerator, solver adapter, input encoder and batch orchestrator.
The Python module is shallowly embedded: pure fragments become Lean
functions, the mutable byte buffer becomes a function `Nat → Nat`
updated pointwise, fallible operations (`struct.pack_into`) return
`Option`, and the external z3 backend is abstracted as an oracle
parameter whose contract mirrors `solver.check() == sat`.
-/

set_option maxRecDepth 10000

/-! ## Predicate model (`ConstraintType`, `PathConstraint`) -/

inductive ConstraintType where
  | eq | neq | lt | gt | le | ge | null | bounds | flag
  deriving DecidableEq, Repr

structure PathConstraint where
  var_name : String
  constraint_type : ConstraintType
  value : Option Int := none
  location : String := ""
  deriving DecidableEq, Repr

/-- Negation map of `ConcolicEngine._negate`: `neg_map.get` with the
original type as default for kinds absent from the map. -/
def negMapGet : ConstraintType → ConstraintType
  | ConstraintType.eq => ConstraintType.neq
  | ConstraintType.neq => ConstraintType.eq
  | ConstraintType.lt => ConstraintType.ge
  | ConstraintType.gt => ConstraintType.le
  | ConstraintType.le => ConstraintType.gt
  | ConstraintType.ge => ConstraintType.lt
  | t => t

/-- `ConcolicEngine._negate`: rebuild the constraint with the mapped kind,
keeping variable, value and location. -/
def negate (c : PathConstraint) : PathConstraint :=
  { var_name := c.var_name
    constraint_type := negMapGet c.constraint_type
    value := c.value
    location := c.location }

/-! ## Execution paths and the enumerator (`_gen_paths`) -/

structure ExecutionPath where
  constraints : List PathConstraint := []
  deriving DecidableEq, Repr

/-- Loop body of `ConcolicEngine._gen_paths`: iterate `enumerate(constraints)`,
breaking once `len(paths) >= max_paths`, appending
`ExecutionPath(constraints[:i] + [negate c])` each iteration. -/
def genPathsLoop (constraints : List PathConstraint) (max_paths : Nat) :
    Nat → List PathConstraint → List ExecutionPath → List ExecutionPath
  | _, [], paths => paths
  | i, c :: rest, paths =>
    if max_paths ≤ paths.length then paths
    else genPathsLoop constraints max_paths (i + 1) rest
      (paths ++ [ExecutionPath.mk (constraints.take i ++ [negate c])])

/-- `ConcolicEngine._gen_paths`: path 0 is the unmodified list, then the
single-flip paths subject to the budget. -/
def gen_paths (constraints : List PathConstraint) (max_paths : Nat) :
    List ExecutionPath :=
  genPathsLoop constraints max_paths 0 constraints [ExecutionPath.mk constraints]

/-- Functional description of the flip paths appended by the loop:
from position `i`, with `fuel` appends remaining. -/
def flipTail (C : List PathConstraint) : Nat → Nat → List PathConstraint → List ExecutionPath
  | _, _, [] => []
  | _, 0, _ :: _ => []
  | i, fuel + 1, c :: rest =>
    ExecutionPath.mk (C.take i ++ [negate c]) :: flipTail C (i + 1) fuel rest

/-! ## Solver adapter (`PathConstraint.to_z3`, `ExecutionPath.solve`)

The z3 backend is external to the repository; it is abstracted as an
oracle `List PathConstraint → Option (String → Nat)` whose soundness
contract (a returned model satisfies the conjunction submitted via
`to_z3`) mirrors `solver.check() == sat` together with `solver.model()`.
What is embedded faithfully from the source is the translation performed
by `to_z3` (64-bit bit-vector variables, z3py's signed comparison
operators, integer operands coerced to 64-bit bit-vector values) and the
construction of the returned assignment dictionary (keys are the
variables registered in `z3_vars`, values the unsigned `as_long` of the
model). -/

/-- Signed reading of an unsigned 64-bit value, as z3's `<`, `>`, `<=`, `>=`
on `BitVec 64` interpret their arguments. -/
def toSigned (v : Nat) : Int :=
  if v < 2 ^ 63 then (v : Int) else (v : Int) - 2 ^ 64

/-- Coercion of a Python integer operand to a 64-bit bit-vector value,
as z3py applies to the `value` field inside `to_z3`. -/
def bvVal (x : Int) : Nat := (x % 2 ^ 64).toNat

/-- Denotation of the z3 formula built by `PathConstraint.to_z3` for one
constraint, evaluated at a 64-bit model `m` (values are taken mod 2^64,
matching the bit-vector sort). `BOUNDS` falls through to `BoolVal(True)`. -/
def constraintHolds (m : String → Nat) (c : PathConstraint) : Bool :=
  let v := m c.var_name % 2 ^ 64
  let w := bvVal (c.value.getD 0)
  match c.constraint_type with
  | ConstraintType.eq => v == w
  | ConstraintType.neq => v != w
  | ConstraintType.lt => decide (toSigned v < toSigned w)
  | ConstraintType.gt => decide (toSigned w < toSigned v)
  | ConstraintType.le => decide (toSigned v ≤ toSigned w)
  | ConstraintType.ge => decide (toSigned w ≤ toSigned v)
  | ConstraintType.null => v != 0
  | ConstraintType.bounds => true
  | ConstraintType.flag => Nat.land v w != 0

/-- Insertion into the `z3_vars` dictionary: a variable is registered the
first time `to_z3` encounters it. -/
def addVar (acc : List String) (v : String) : List String :=
  if v ∈ acc then acc else acc ++ [v]

def pathVarsAux (acc : List String) : List PathConstraint → List String
  | [] => acc
  | c :: t => pathVarsAux (addVar acc c.var_name) t

/-- Keys of `z3_vars` after all constraints of a path have been translated:
distinct variable names in first-occurrence order. -/
def pathVars (cs : List PathConstraint) : List String := pathVarsAux [] cs

/-- Association-list lookup, modelling `var in solution` / `solution[var]`
on the returned dictionary. -/
def lookupNat (k : String) : List (String × Nat) → Option Nat
  | [] => none
  | p :: t => if p.1 = k then some p.2 else lookupNat k t

/-- `ExecutionPath.solve`: submit the conjunction to the solver (the
oracle); on sat, return the dictionary mapping each registered variable
to the unsigned value of the model. -/
def pathSolve (oracle : List PathConstraint → Option (String → Nat))
    (p : ExecutionPath) : Option (List (String × Nat)) :=
  (oracle p.constraints).map
    (fun m => (pathVars p.constraints).map (fun v => (v, m v)))

/-! ## Input encoder (`ConcolicEngine._sol_to_bytes`)

The 4096-byte `bytearray` becomes a function `Nat → Nat` initialised to
zero and updated pointwise; `struct.pack_into` becomes `packLE`, which
fails (raises `struct.error`) exactly when the slot `[offset, offset+width)`
does not fit inside the 4096-byte capacity; the final
`bytes(buf[:max(offset, 1024)])` becomes `materialize`. -/

/-- Substring membership on character lists (Python's `in` on strings). -/
def hasSub (sub : List Char) : List Char → Bool
  | [] => sub.isEmpty
  | c :: t => sub.isPrefixOf (c :: t) || hasSub sub t

/-- Python's `sub in s` for strings. -/
def strContains (s sub : String) : Bool := hasSub sub.toList s.toList

/-- One argument's metadata from the firness manifest entry:
`arg_dir`, `variable`, `arg_type` (missing keys read as `""`). -/
structure ArgInfo where
  arg_dir : String
  variable_ : String
  arg_type : String
  deriving DecidableEq, Repr

/-- One entry of the firness manifest: `Function` name and the ordered
`Arguments` mapping (dict insertion order). -/
structure FuncData where
  Function : String
  Arguments : List (String × ArgInfo)
  deriving DecidableEq, Repr

/-- Width (in bytes) selected by `_sol_to_bytes`'s substring tests on
`arg_type`: `'64' in t` first, then `'32'`, `'16'`, `'8'`, default 4. -/
def widthOf (t : String) : Nat :=
  if strContains t "64" then 8
  else if strContains t "32" then 4
  else if strContains t "16" then 2
  else if strContains t "8" then 1
  else 4

/-- Point update of the byte buffer. -/
def bufWrite (buf : Nat → Nat) (i v : Nat) : Nat → Nat :=
  fun j => if j = i then v else buf j

/-- Little-endian byte store: width bytes of `v` starting at `off`. -/
def writeBytes : (Nat → Nat) → Nat → Nat → Nat → (Nat → Nat)
  | buf, _, 0, _ => buf
  | buf, off, w + 1, v =>
    writeBytes (bufWrite buf off (v % 256)) (off + 1) w (v / 256)

/-- `struct.pack_into` on the 4096-byte buffer: raises (returns `none`)
when the slot does not fit. -/
def packLE (buf : Nat → Nat) (off w v : Nat) : Option (Nat → Nat) :=
  if off + w ≤ 4096 then some (writeBytes buf off w v) else none

/-- Loop of `_sol_to_bytes` over the manifest's arguments, threading the
buffer and the cumulative offset; skips non-`IN` arguments; writes the
masked value at the current offset when the backing variable is present,
otherwise advances by the fixed 8-byte placeholder without writing. -/
def solToBytesLoop (sol : List (String × Nat)) :
    List (String × ArgInfo) → (Nat → Nat) → Nat → Option ((Nat → Nat) × Nat)
  | [], buf, off => some (buf, off)
  | a :: rest, buf, off =>
    if a.2.arg_dir ≠ "IN" then solToBytesLoop sol rest buf off
    else
      match lookupNat a.2.variable_ sol with
      | some val =>
        let w := widthOf a.2.arg_type
        match packLE buf off w (val % 2 ^ (8 * w)) with
        | some buf2 => solToBytesLoop sol rest buf2 (off + w)
        | none => none
      | none => solToBytesLoop sol rest buf (off + 8)

/-- The cumulative offset after processing a list of arguments (offsets do
not depend on the buffer contents). -/
def offsetAfter (sol : List (String × Nat)) :
    List (String × ArgInfo) → Nat → Nat
  | [], off => off
  | a :: rest, off =>
    if a.2.arg_dir ≠ "IN" then offsetAfter sol rest off
    else
      match lookupNat a.2.variable_ sol with
      | some _ => offsetAfter sol rest (off + widthOf a.2.arg_type)
      | none => offsetAfter sol rest (off + 8)

/-- The offset at which each argument of the list is processed (the slot
start for written arguments). -/
def argOffsets (sol : List (String × Nat)) :
    List (String × ArgInfo) → Nat → List Nat
  | [], _ => []
  | a :: rest, off =>
    if a.2.arg_dir ≠ "IN" then off :: argOffsets sol rest off
    else
      match lookupNat a.2.variable_ sol with
      | some _ => off :: argOffsets sol rest (off + widthOf a.2.arg_type)
      | none => off :: argOffsets sol rest (off + 8)

/-- `bytes(buf[:max(offset, 1024)])` on the 4096-byte buffer: the slice
stops at the buffer's physical end. -/
def materialize (buf : Nat → Nat) (off : Nat) : List Nat :=
  (List.range (min (max off 1024) 4096)).map buf

/-- `ConcolicEngine._sol_to_bytes`: `none` models a `struct.error` escape
(`pack_into` beyond capacity); otherwise the returned byte string. -/
def sol_to_bytes (sol : List (String × Nat)) (fd : FuncData) : Option (List Nat) :=
  (solToBytesLoop sol fd.Arguments (fun _ => 0) 0).map
    (fun r => materialize r.1 r.2)

/-- Removal of one key from an assignment (the absent-variable case). -/
def removeKey (v : String) : List (String × Nat) → List (String × Nat)
  | [] => []
  | p :: t => if p.1 = v then removeKey v t else p :: removeKey v t

/-! ## Constraint extractor (`ConcolicEngine.extract_constraints`)

The file system is abstracted as `String → Option String` (path to
content when the file exists, mirroring `os.path.exists` plus `read`).
The three guard regexes are embedded as deterministic matchers over
character lists, and `re.search` as `searchM`, which tries every start
position left to right; the patterns involved (`\w+`, `\s*` followed by
literal characters) match without observable backtracking, so the
deterministic matchers agree with the regex engine. -/

/-- Python's ASCII `\s` class (also what `str.strip` removes here). -/
def isSpaceChar (c : Char) : Bool :=
  c = ' ' || c = '\t' || c = '\n' || c = '\r' || c = '\x0b' || c = '\x0c'

/-- Python's ASCII `\w` class. -/
def isWordChar (c : Char) : Bool := c.isAlphanum || c = '_'

def isHexDigitChar (c : Char) : Bool :=
  c.isDigit || ('a' ≤ c && c ≤ 'f') || ('A' ≤ c && c ≤ 'F')

def hexDigitVal (c : Char) : Nat :=
  if c.isDigit then c.toNat - '0'.toNat
  else if 'a' ≤ c && c ≤ 'f' then c.toNat - 'a'.toNat + 10
  else c.toNat - 'A'.toNat + 10

/-- `line.strip()`. -/
def stripLine (l : List Char) : List Char :=
  ((l.dropWhile isSpaceChar).reverse.dropWhile isSpaceChar).reverse

/-- `str.split('\n')`. -/
def splitLines : List Char → List (List Char)
  | [] => [[]]
  | c :: t =>
    if c = '\n' then [] :: splitLines t
    else
      match splitLines t with
      | h :: r => (c :: h) :: r
      | [] => [[c]]

/-- `re.search`: try the matcher at every start position, leftmost first
(including the empty suffix). -/
def searchM {α : Type} (m : List Char → Option α) : List Char → Option α
  | [] => m []
  | c :: t =>
    match m (c :: t) with
    | some r => some r
    | none => searchM m t

/-- Common prefix of the three guard regexes: literal `if`, then `\s*\(`. -/
def matchIfParen : List Char → Option (List Char)
  | 'i' :: 'f' :: rest =>
    match rest.dropWhile isSpaceChar with
    | '(' :: t => some t
    | _ => none
  | _ => none

/-- Matcher for `if\s*\(\s*(\w+)\s*[!=]=\s*NULL`; returns the variable. -/
def nullMatchAt (l : List Char) : Option (List Char) :=
  match matchIfParen l with
  | none => none
  | some r2 =>
    let r3 := r2.dropWhile isSpaceChar
    let w := r3.takeWhile isWordChar
    if w.isEmpty then none
    else
      match (r3.dropWhile isWordChar).dropWhile isSpaceChar with
      | a :: '=' :: r6 =>
        if a = '!' || a = '=' then
          if ("NULL".toList).isPrefixOf (r6.dropWhile isSpaceChar) then some w
          else none
        else none
      | _ => none

/-- First alternative of the flag-value group: `0x[0-9a-fA-F]+`. -/
def hexAltAt : List Char → Option (List Char)
  | '0' :: 'x' :: t =>
    let hx := t.takeWhile isHexDigitChar
    if hx.isEmpty then none else some ('0' :: 'x' :: hx)
  | _ => none

/-- Matcher for `if\s*\(\s*\(?(\w+)\s*&\s*(0x[0-9a-fA-F]+|\w+)`;
returns (variable, value token). -/
def flagMatchAt (l : List Char) : Option (List Char × List Char) :=
  match matchIfParen l with
  | none => none
  | some r2 =>
    let r3 := r2.dropWhile isSpaceChar
    let r3b := match r3 with
      | '(' :: t => t
      | _ => r3
    let w := r3b.takeWhile isWordChar
    if w.isEmpty then none
    else
      match (r3b.dropWhile isWordChar).dropWhile isSpaceChar with
      | '&' :: r6 =>
        let r7 := r6.dropWhile isSpaceChar
        match hexAltAt r7 with
        | some v => some (w, v)
        | none =>
          let v := r7.takeWhile isWordChar
          if v.isEmpty then none else some (w, v)
      | _ => none

/-- Matcher for `if\s*\(\s*(\w+)\s*{op}\s*([0-9x]+)` with the operator
escaped literally; returns (variable, value token). -/
def compMatchAt (op : List Char) (l : List Char) : Option (List Char × List Char) :=
  match matchIfParen l with
  | none => none
  | some r2 =>
    let r3 := r2.dropWhile isSpaceChar
    let w := r3.takeWhile isWordChar
    if w.isEmpty then none
    else
      let r5 := (r3.dropWhile isWordChar).dropWhile isSpaceChar
      if op.isPrefixOf r5 then
        let v := ((r5.drop op.length).dropWhile isSpaceChar).takeWhile
          (fun c => c.isDigit || c = 'x')
        if v.isEmpty then none else some (w, v)
      else none

def decDigitsVal (acc : Nat) : List Char → Nat
  | [] => acc
  | c :: t => decDigitsVal (acc * 10 + (c.toNat - '0'.toNat)) t

def hexDigitsVal (acc : Nat) : List Char → Nat
  | [] => acc
  | c :: t => hexDigitsVal (acc * 16 + hexDigitVal c) t

/-- Hex digits with Python's underscore rules (single separators between
digits), consuming the whole token. -/
def hexCoreAux (acc : Nat) : List Char → Option Nat
  | [] => some acc
  | '_' :: c :: t =>
    if isHexDigitChar c then hexCoreAux (acc * 16 + hexDigitVal c) t else none
  | c :: t =>
    if isHexDigitChar c then hexCoreAux (acc * 16 + hexDigitVal c) t else none

def hexCoreStart : List Char → Option Nat
  | [] => none
  | c :: t => if isHexDigitChar c then hexCoreAux (hexDigitVal c) t else none

/-- `int(val, 16)` for a token starting with `0x` (one underscore allowed
right after the prefix, as Python accepts). -/
def parseHex16 : List Char → Option Nat
  | '0' :: 'x' :: rest =>
    (match rest with
     | '_' :: t => hexCoreStart t
     | _ => hexCoreStart rest)
  | _ => none

/-- `int(val, 0)` restricted to the `[0-9x]+` tokens the comparison regex
can produce: `0x` + decimal-looking hex digits, or a decimal literal
without forbidden leading zeros. -/
def parseIntBase0 (l : List Char) : Option Nat :=
  match l with
  | '0' :: 'x' :: rest =>
    if !rest.isEmpty && rest.all Char.isDigit then some (hexDigitsVal 0 rest)
    else none
  | _ =>
    if !l.isEmpty && l.all Char.isDigit then
      match l with
      | '0' :: t => if t.all (fun c => c = '0') then some 0 else none
      | _ => some (decDigitsVal 0 l)
    else none

/-- The `f"{function_name}:{i}"` origin tag. -/
def locOf (fname : String) (i : Nat) : String := fname ++ ":" ++ toString i

/-- NULL-check scan of one (stripped) line. -/
def nullCs (fname : String) (i : Nat) (line : List Char) : List PathConstraint :=
  if hasSub ("if".toList) line &&
      (hasSub ("== NULL".toList) line || hasSub ("!=".toList) line) then
    match searchM nullMatchAt line with
    | some w =>
      [PathConstraint.mk (String.mk w) ConstraintType.null none (locOf fname i)]
    | none => []
  else []

/-- Flag-check scan of one (stripped) line: hex literals are parsed with
base 16, anything else gets mask `0`; a failed hex parse drops the
predicate (`except: pass`). -/
def flagCs (fname : String) (i : Nat) (line : List Char) : List PathConstraint :=
  if hasSub ("if".toList) line && hasSub ("&".toList) line &&
      !hasSub ("&&".toList) line then
    match searchM flagMatchAt line with
    | some wv =>
      if ("0x".toList).isPrefixOf wv.2 then
        match parseHex16 wv.2 with
        | some n =>
          [PathConstraint.mk (String.mk wv.1) ConstraintType.flag (some (n : Int))
            (locOf fname i)]
        | none => []
      else
        [PathConstraint.mk (String.mk wv.1) ConstraintType.flag (some 0)
          (locOf fname i)]
    | none => []
  else []

/-- The comparison operators in the source's iteration order: note `<` and
`>` are tried before `<=` and `>=`. -/
def compOps : List (List Char × ConstraintType) :=
  [("<".toList, ConstraintType.lt), (">".toList, ConstraintType.gt),
   ("<=".toList, ConstraintType.le), (">=".toList, ConstraintType.ge),
   ("==".toList, ConstraintType.eq), ("!=".toList, ConstraintType.neq)]

/-- Comparison scan of one (stripped) line for one operator; a failed
`int(val, 0)` drops the predicate (`except: pass`). -/
def compCsOne (fname : String) (i : Nat) (line : List Char)
    (op : List Char) (ct : ConstraintType) : List PathConstraint :=
  if hasSub ("if".toList) line && hasSub op line then
    match searchM (compMatchAt op) line with
    | some wv =>
      match parseIntBase0 wv.2 with
      | some n =>
        [PathConstraint.mk (String.mk wv.1) ct (some (n : Int)) (locOf fname i)]
      | none => []
    | none => []
  else []

def compCs (fname : String) (i : Nat) (line : List Char) : List PathConstraint :=
  (compOps.map (fun oc => compCsOne fname i line oc.1 oc.2)).flatten

/-- All constraints contributed by line `i`: the line is stripped, then
the three idioms are scanned independently, in source order. -/
def lineConstraints (fname : String) (i : Nat) (rawLine : List Char) :
    List PathConstraint :=
  nullCs fname i (stripLine rawLine) ++ flagCs fname i (stripLine rawLine) ++
    compCs fname i (stripLine rawLine)

def scanLines (fname : String) : Nat → List (List Char) → List PathConstraint
  | _, [] => []
  | i, l :: rest => lineConstraints fname i l ++ scanLines fname (i + 1) rest

/-- Matcher for `rf'{function_name}\s*\('` at one position; returns the
suffix after the `(` (i.e. `match.end()`). -/
def matchNameParen (name : List Char) (l : List Char) : Option (List Char) :=
  if name.isPrefixOf l then
    match (l.drop name.length).dropWhile isSpaceChar with
    | '(' :: t => some t
    | _ => none
  else none

/-- `content.find('\x7b', start)`: the suffix after the first opening
brace, if any. -/
def findBrace : List Char → Option (List Char)
  | [] => none
  | c :: t => if c = '\x7b' then some t else findBrace t

/-- The brace-depth scan: consume characters while `depth > 0`, adjusting
depth at braces; stops after the closing brace or at end of text — with
no check that the depth ever returned to zero. -/
def scanBody : Nat → List Char → List Char
  | _, [] => []
  | depth, c :: t =>
    if depth = 0 then []
    else
      c :: scanBody
        (if c = '\x7b' then depth + 1 else if c = '\x7d' then depth - 1 else depth) t

/-- `ConcolicEngine.extract_constraints` over the abstract file system:
empty on missing file, missing function-name match, or missing opening
brace; otherwise scans the brace-delimited (or truncated) body line by
line. -/
def extract_constraints (fs : String → Option String)
    (source_file : String) (function_name : String) : List PathConstraint :=
  match fs source_file with
  | none => []
  | some content =>
    match searchM (matchNameParen function_name.toList) content.toList with
    | none => []
    | some afterParen =>
      match findBrace afterParen with
      | none => []
      | some afterBrace =>
        scanLines function_name 0 (splitLines ('\x7b' :: scanBody 1 afterBrace))

/-! ## Batch orchestrator (`ConcolicEngine.generate_inputs`)

Artifact persistence is modelled as the returned list of
`(file name, bytes)` pairs (the caller-specified output directory is a
fixed prefix added by `os.path.join` and is omitted); the printed total
is the returned counter. A `struct.error` escaping from the encoder
aborts the whole run (`none`). The constraint source is the
`constraint_cache` hint registry, read with default `[]`; note Python's
`if sol:` is false for an *empty* solved dictionary, not only for
`None`. -/

/-- Inner loop over `enumerate(paths)`: solve, encode, persist, count. -/
def pathLoop (oracle : List PathConstraint → Option (String → Nat)) (fd : FuncData) :
    List (Nat × ExecutionPath) → List (String × List Nat) → Nat →
      Option (List (String × List Nat) × Nat)
  | [], arts, count => some (arts, count)
  | ip :: rest, arts, count =>
    match pathSolve oracle ip.2 with
    | some sol =>
      if sol.isEmpty then pathLoop oracle fd rest arts count
      else
        match sol_to_bytes sol fd with
        | some data =>
          pathLoop oracle fd rest
            (arts ++ [(fd.Function ++ "_p" ++ toString ip.1 ++ ".bin", data)])
            (count + 1)
        | none => none
    | none => pathLoop oracle fd rest arts count

/-- Outer loop over the firness manifest entries: skip empty function
names and functions with no (nonempty) cached hint list. -/
def genLoop (oracle : List PathConstraint → Option (String → Nat))
    (cache : String → List PathConstraint) (max_paths : Nat) :
    List FuncData → List (String × List Nat) → Nat →
      Option (List (String × List Nat) × Nat)
  | [], arts, count => some (arts, count)
  | fd :: rest, arts, count =>
    if fd.Function = "" then genLoop oracle cache max_paths rest arts count
    else if (cache fd.Function).isEmpty then
      genLoop oracle cache max_paths rest arts count
    else
      match pathLoop oracle fd (gen_paths (cache fd.Function) max_paths).enum
          arts count with
      | some r => genLoop oracle cache max_paths rest r.1 r.2
      | none => none

/-- `ConcolicEngine.generate_inputs`. -/
def generate_inputs (oracle : List PathConstraint → Option (String → Nat))
    (firness : List FuncData) (cache : String → List PathConstraint)
    (max_paths : Nat) : Option (List (String × List Nat) × Nat) :=
  genLoop oracle cache max_paths firness [] 0

/-- The artifact one enumerated path contributes, if any (specification
side of claim C5: one artifact per solved — nonempty — and encodable
path, deterministically named from function name and path index). -/
def artOf (oracle : List PathConstraint → Option (String → Nat)) (fd : FuncData)
    (ip : Nat × ExecutionPath) : Option (String × List Nat) :=
  match pathSolve oracle ip.2 with
  | some sol =>
    if sol.isEmpty then none
    else (sol_to_bytes sol fd).map
      (fun d => (fd.Function ++ "_p" ++ toString ip.1 ++ ".bin", d))
  | none => none

/-- The artifacts one manifest entry contributes (specification side of
claim C5). -/
def expectedArtifacts (oracle : List PathConstraint → Option (String → Nat))
    (cache : String → List PathConstraint) (max_paths : Nat) (fd : FuncData) :
    List (String × List Nat) :=
  if fd.Function = "" then []
  else if (cache fd.Function).isEmpty then []
  else (gen_paths (cache fd.Function) max_paths).enum.filterMap (artOf oracle fd)

/-! ## Helper lemmas -/

theorem flipTail_zero (C : List PathConstraint) (i : Nat) (l : List PathConstraint) :
    flipTail C i 0 l = [] := by
  cases l <;> rfl

theorem genPathsLoop_eq_flipTail (C : List PathConstraint) (N : Nat) :
    ∀ (rest : List PathConstraint) (i : Nat) (acc : List ExecutionPath),
      genPathsLoop C N i rest acc = acc ++ flipTail C i (N - acc.length) rest := by
  intro rest
  induction rest with
  | nil => intro i acc; simp [genPathsLoop, flipTail]
  | cons c t ih =>
    intro i acc
    by_cases h : N ≤ acc.length
    · have hz : N - acc.length = 0 := Nat.sub_eq_zero_of_le h
      simp [genPathsLoop, h, hz, flipTail]
    · have hlt : acc.length < N := Nat.lt_of_not_le h
      have hfuel : N - acc.length = (N - (acc.length + 1)) + 1 := by omega
      rw [genPathsLoop]
      simp only [h, if_false]
      rw [ih (i + 1) (acc ++ [ExecutionPath.mk (C.take i ++ [negate c])])]
      rw [hfuel, flipTail]
      simp

theorem flipTail_length (C : List PathConstraint) :
    ∀ (rest : List PathConstraint) (i fuel : Nat),
      (flipTail C i fuel rest).length = min rest.length fuel := by
  intro rest
  induction rest with
  | nil => intro i fuel; simp [flipTail]
  | cons c t ih =>
    intro i fuel
    cases fuel with
    | zero => simp [flipTail]
    | succ f => simp [flipTail, ih, Nat.succ_min_succ]

theorem flipTail_get? (C : List PathConstraint) :
    ∀ (rest : List PathConstraint) (i fuel k : Nat) (c : PathConstraint),
      rest.get? k = some c → k < fuel →
      (flipTail C i fuel rest).get? k =
        some (ExecutionPath.mk (C.take (i + k) ++ [negate c])) := by
  intro rest
  induction rest with
  | nil => intro i fuel k c h; simp at h
  | cons a t ih =>
    intro i fuel k c h hk
    cases fuel with
    | zero => omega
    | succ f =>
      cases k with
      | zero =>
        rw [List.get?_cons_zero] at h
        cases h
        simp [flipTail]
      | succ k' =>
        rw [List.get?_cons_succ] at h
        have hrec := ih (i + 1) f k' c h (by omega)
        have hidx : i + 1 + k' = i + (k' + 1) := by omega
        rw [flipTail, List.get?_cons_succ, hrec, hidx]

theorem mem_pathVarsAux_of_mem (x : String) :
    ∀ (cs : List PathConstraint) (acc : List String),
      x ∈ acc → x ∈ pathVarsAux acc cs := by
  intro cs
  induction cs with
  | nil => intro acc h; simpa [pathVarsAux] using h
  | cons c t ih =>
    intro acc h
    rw [pathVarsAux]
    apply ih
    unfold addVar
    split
    · exact h
    · simp [h]

theorem var_mem_pathVarsAux (c : PathConstraint) :
    ∀ (cs : List PathConstraint) (acc : List String),
      c ∈ cs → c.var_name ∈ pathVarsAux acc cs := by
  intro cs
  induction cs with
  | nil => intro acc h; simp at h
  | cons a t ih =>
    intro acc h
    rw [pathVarsAux]
    rcases List.mem_cons.mp h with h1 | h2
    · subst h1
      apply mem_pathVarsAux_of_mem
      unfold addVar
      split
      · assumption
      · simp
    · exact ih _ h2

theorem lookupNat_map_self (m : String → Nat) (x : String) :
    ∀ l : List String, x ∈ l →
      lookupNat x (l.map (fun v => (v, m v))) = some (m x) := by
  intro l
  induction l with
  | nil => intro h; simp at h
  | cons a t ih =>
    intro h
    rcases List.mem_cons.mp h with h1 | h2
    · subst h1; simp [lookupNat]
    · by_cases ha : a = x
      · subst ha; simp [lookupNat]
      · simp [lookupNat, ha, ih h2]

theorem packLE_pos (buf : Nat → Nat) (off w v : Nat) (h : off + w ≤ 4096) :
    packLE buf off w v = some (writeBytes buf off w v) := by
  unfold packLE
  rw [if_pos h]

theorem packLE_some (buf : Nat → Nat) (off w v : Nat) (b : Nat → Nat)
    (h : packLE buf off w v = some b) :
    off + w ≤ 4096 ∧ b = writeBytes buf off w v := by
  unfold packLE at h
  split at h
  · cases h; exact ⟨by assumption, rfl⟩
  · cases h

theorem writeBytes_outside :
    ∀ (w : Nat) (buf : Nat → Nat) (off v p : Nat),
      p < off ∨ off + w ≤ p → writeBytes buf off w v p = buf p := by
  intro w
  induction w with
  | zero => intro buf off v p _; rfl
  | succ w' ih =>
    intro buf off v p hp
    rw [writeBytes]
    rw [ih _ (off + 1) _ p (by omega)]
    unfold bufWrite
    have : p ≠ off := by omega
    simp [this]

theorem writeBytes_at :
    ∀ (w k : Nat) (buf : Nat → Nat) (off v : Nat), k < w →
      writeBytes buf off w v (off + k) = v / 256 ^ k % 256 := by
  intro w
  induction w with
  | zero => intro k buf off v h; omega
  | succ w' ih =>
    intro k buf off v _
    cases k with
    | zero =>
      rw [writeBytes]
      rw [writeBytes_outside w' _ (off + 1) _ (off + 0) (by omega)]
      simp [bufWrite]
    | succ k' =>
      rw [writeBytes]
      have harr : off + (k' + 1) = (off + 1) + k' := by omega
      rw [harr, ih k' _ (off + 1) _ (by omega)]
      rw [Nat.div_div_eq_div_mul]
      congr 1
      rw [pow_succ]
      rw [Nat.mul_comm 256 (256 ^ k')]

theorem writeBytes_congr_point :
    ∀ (w : Nat) (buf buf' : Nat → Nat) (off v p : Nat),
      buf p = buf' p → writeBytes buf off w v p = writeBytes buf' off w v p := by
  intro w
  induction w with
  | zero => intro buf buf' off v p h; exact h
  | succ w' ih =>
    intro buf buf' off v p h
    rw [writeBytes, writeBytes]
    apply ih
    unfold bufWrite
    by_cases hp : p = off <;> simp [hp, h]

theorem offsetAfter_le (sol : List (String × Nat)) :
    ∀ (args : List (String × ArgInfo)) (off : Nat),
      off ≤ offsetAfter sol args off := by
  intro args
  induction args with
  | nil => intro off; simp [offsetAfter]
  | cons a rest ih =>
    intro off
    rw [offsetAfter]
    split
    · exact ih off
    · cases lookupNat a.2.variable_ sol with
      | some _ =>
        calc off ≤ off + widthOf a.2.arg_type := by omega
          _ ≤ _ := ih _
      | none =>
        calc off ≤ off + 8 := by omega
          _ ≤ _ := ih _

theorem solToBytesLoop_offset (sol : List (String × Nat)) :
    ∀ (args : List (String × ArgInfo)) (buf : Nat → Nat) (off : Nat)
      (b : Nat → Nat) (o : Nat),
      solToBytesLoop sol args buf off = some (b, o) →
      o = offsetAfter sol args off := by
  intro args
  induction args with
  | nil =>
    intro buf off b o h
    rw [solToBytesLoop] at h
    cases h
    rfl
  | cons a rest ih =>
    intro buf off b o h
    rw [solToBytesLoop] at h
    rw [offsetAfter]
    split at h
    · rename_i hdir
      simp only [hdir, if_pos, ne_eq, if_true]
      exact ih _ _ _ _ h
    · rename_i hdir
      simp only [if_neg hdir]
      cases hlk : lookupNat a.2.variable_ sol with
      | some val =>
        rw [hlk] at h
        simp only at h
        cases hpk : packLE buf off (widthOf a.2.arg_type) (val % 2 ^ (8 * widthOf a.2.arg_type)) with
        | some buf2 =>
          rw [hpk] at h
          exact ih _ _ _ _ h
        | none => rw [hpk] at h; cases h
      | none =>
        rw [hlk] at h
        exact ih _ _ _ _ h

theorem solToBytesLoop_frame (sol : List (String × Nat)) :
    ∀ (args : List (String × ArgInfo)) (buf : Nat → Nat) (off : Nat)
      (b : Nat → Nat) (o : Nat),
      solToBytesLoop sol args buf off = some (b, o) →
      ∀ p, p < off ∨ o ≤ p → b p = buf p := by
  intro args
  induction args with
  | nil =>
    intro buf off b o h p _
    rw [solToBytesLoop] at h
    cases h
    rfl
  | cons a rest ih =>
    intro buf off b o h p hp
    rw [solToBytesLoop] at h
    split at h
    · exact ih _ _ _ _ h p hp
    · cases hlk : lookupNat a.2.variable_ sol with
      | some val =>
        simp only [hlk] at h
        cases hpk : packLE buf off (widthOf a.2.arg_type) (val % 2 ^ (8 * widthOf a.2.arg_type)) with
        | some buf2 =>
          rw [hpk] at h
          obtain ⟨hcap, hb2⟩ := packLE_some _ _ _ _ _ hpk
          have hrest := ih _ _ _ _ h p (by
            rcases hp with h1 | h2
            · left; omega
            · right; exact h2)
          rw [hrest, hb2]
          apply writeBytes_outside
          rcases hp with h1 | h2
          · left; exact h1
          · right
            have h3 := solToBytesLoop_offset sol rest buf2 (off + widthOf a.2.arg_type) b o h
            have h4 := offsetAfter_le sol rest (off + widthOf a.2.arg_type)
            omega
        | none => rw [hpk] at h; cases h
      | none =>
        simp only [hlk] at h
        apply ih _ _ _ _ h p
        rcases hp with h1 | h2
        · left; omega
        · right; exact h2

theorem solToBytesLoop_congr (sol : List (String × Nat)) :
    ∀ (args : List (String × ArgInfo)) (buf : Nat → Nat) (off : Nat)
      (b : Nat → Nat) (o : Nat),
      solToBytesLoop sol args buf off = some (b, o) →
      ∀ buf' : Nat → Nat, ∃ b' : Nat → Nat,
        solToBytesLoop sol args buf' off = some (b', o) ∧
        ∀ p, buf p = buf' p → b p = b' p := by
  intro args
  induction args with
  | nil =>
    intro buf off b o h buf'
    rw [solToBytesLoop] at h
    cases h
    exact ⟨buf', rfl, fun p hp => hp⟩
  | cons a rest ih =>
    intro buf off b o h buf'
    rw [solToBytesLoop] at h
    rw [solToBytesLoop]
    split at h
    · rename_i hdir
      rw [if_pos hdir]
      exact ih _ _ _ _ h buf'
    · rename_i hdir
      rw [if_neg hdir]
      cases hlk : lookupNat a.2.variable_ sol with
      | some val =>
        simp only [hlk] at h ⊢
        cases hpk : packLE buf off (widthOf a.2.arg_type) (val % 2 ^ (8 * widthOf a.2.arg_type)) with
        | some buf2 =>
          rw [hpk] at h
          obtain ⟨hcap, hb2⟩ := packLE_some _ _ _ _ _ hpk
          subst hb2
          rw [packLE_pos buf' off (widthOf a.2.arg_type) (val % 2 ^ (8 * widthOf a.2.arg_type)) hcap]
          obtain ⟨b', hb', hpt⟩ := ih _ _ _ _ h
            (writeBytes buf' off (widthOf a.2.arg_type) (val % 2 ^ (8 * widthOf a.2.arg_type)))
          refine ⟨b', hb', ?_⟩
          intro p hp
          exact hpt p (writeBytes_congr_point _ _ _ _ _ _ hp)
        | none =>
          rw [hpk] at h
          cases h
      | none =>
        simp only [hlk] at h ⊢
        exact ih _ _ _ _ h buf'

theorem solToBytesLoop_append (sol : List (String × Nat)) :
    ∀ (xs ys : List (String × ArgInfo)) (buf : Nat → Nat) (off : Nat),
      solToBytesLoop sol (xs ++ ys) buf off =
        (solToBytesLoop sol xs buf off).bind
          (fun r => solToBytesLoop sol ys r.1 r.2) := by
  intro xs ys
  induction xs with
  | nil => intro buf off; simp [solToBytesLoop]
  | cons a rest ih =>
    intro buf off
    rw [List.cons_append, solToBytesLoop, solToBytesLoop]
    split
    · exact ih buf off
    · cases lookupNat a.2.variable_ sol with
      | some val =>
        simp only
        cases packLE buf off (widthOf a.2.arg_type) (val % 2 ^ (8 * widthOf a.2.arg_type)) with
        | some buf2 => exact ih buf2 _
        | none => rfl
      | none => exact ih buf _

theorem lookupNat_removeKey_self (v : String) :
    ∀ sol : List (String × Nat), lookupNat v (removeKey v sol) = none := by
  intro sol
  induction sol with
  | nil => rfl
  | cons p t ih =>
    rw [removeKey]
    split
    · exact ih
    · rename_i hne
      rw [lookupNat]
      rw [if_neg hne]
      exact ih

theorem lookupNat_removeKey_ne (v x : String) (hx : x ≠ v) :
    ∀ sol : List (String × Nat),
      lookupNat x (removeKey v sol) = lookupNat x sol := by
  intro sol
  induction sol with
  | nil => rfl
  | cons p t ih =>
    rw [removeKey]
    split
    · rename_i hv
      rw [lookupNat]
      have : ¬ p.1 = x := by rw [hv]; exact fun h => hx h.symm
      rw [if_neg this]
      exact ih
    · rw [lookupNat, lookupNat]
      split
      · rfl
      · exact ih

theorem solToBytesLoop_irrel (sol : List (String × Nat)) (v : String) :
    ∀ (args : List (String × ArgInfo)) (buf : Nat → Nat) (off : Nat),
      (∀ a ∈ args, a.2.variable_ ≠ v) →
      solToBytesLoop (removeKey v sol) args buf off =
        solToBytesLoop sol args buf off := by
  intro args
  induction args with
  | nil => intro buf off _; rfl
  | cons a rest ih =>
    intro buf off hv
    have hvar : a.2.variable_ ≠ v := hv a (List.mem_cons_self a rest)
    have hrest : ∀ x ∈ rest, x.2.variable_ ≠ v :=
      fun x hx => hv x (List.mem_cons_of_mem a hx)
    rw [solToBytesLoop, solToBytesLoop]
    rw [lookupNat_removeKey_ne v a.2.variable_ hvar sol]
    split
    · exact ih buf off hrest
    · cases lookupNat a.2.variable_ sol with
      | some val =>
        simp only
        cases packLE buf off (widthOf a.2.arg_type) (val % 2 ^ (8 * widthOf a.2.arg_type)) with
        | some buf2 => exact ih buf2 _ hrest
        | none => rfl
      | none => exact ih buf _ hrest

theorem offsetAfter_irrel (sol : List (String × Nat)) (v : String) :
    ∀ (args : List (String × ArgInfo)) (off : Nat),
      (∀ a ∈ args, a.2.variable_ ≠ v) →
      offsetAfter (removeKey v sol) args off = offsetAfter sol args off := by
  intro args
  induction args with
  | nil => intro off _; rfl
  | cons a rest ih =>
    intro off hv
    have hvar : a.2.variable_ ≠ v := hv a (List.mem_cons_self a rest)
    have hrest : ∀ x ∈ rest, x.2.variable_ ≠ v :=
      fun x hx => hv x (List.mem_cons_of_mem a hx)
    rw [offsetAfter, offsetAfter]
    rw [lookupNat_removeKey_ne v a.2.variable_ hvar sol]
    split
    · exact ih off hrest
    · cases lookupNat a.2.variable_ sol with
      | some val => exact ih _ hrest
      | none => exact ih _ hrest

theorem argOffsets_irrel (sol : List (String × Nat)) (v : String) :
    ∀ (args : List (String × ArgInfo)) (off : Nat),
      (∀ a ∈ args, a.2.variable_ ≠ v) →
      argOffsets (removeKey v sol) args off = argOffsets sol args off := by
  intro args
  induction args with
  | nil => intro off _; rfl
  | cons a rest ih =>
    intro off hv
    have hvar : a.2.variable_ ≠ v := hv a (List.mem_cons_self a rest)
    have hrest : ∀ x ∈ rest, x.2.variable_ ≠ v :=
      fun x hx => hv x (List.mem_cons_of_mem a hx)
    rw [argOffsets, argOffsets]
    rw [lookupNat_removeKey_ne v a.2.variable_ hvar sol]
    split
    · rw [ih off hrest]
    · cases lookupNat a.2.variable_ sol with
      | some val => simp only; rw [ih _ hrest]
      | none => simp only; rw [ih _ hrest]

theorem solToBytesLoop_total (sol : List (String × Nat)) :
    ∀ (args : List (String × ArgInfo)) (buf : Nat → Nat) (off : Nat),
      offsetAfter sol args off ≤ 4096 →
      ∃ b : Nat → Nat,
        solToBytesLoop sol args buf off = some (b, offsetAfter sol args off) := by
  intro args
  induction args with
  | nil => intro buf off _; exact ⟨buf, rfl⟩
  | cons a rest ih =>
    intro buf off hcap
    rw [offsetAfter] at hcap ⊢
    rw [solToBytesLoop]
    by_cases hdir : a.2.arg_dir ≠ "IN"
    · simp only [if_pos hdir] at hcap ⊢
      exact ih buf off hcap
    · simp only [if_neg hdir] at hcap ⊢
      cases hlk : lookupNat a.2.variable_ sol with
      | some val =>
        simp only [hlk] at hcap ⊢
        have hw : off + widthOf a.2.arg_type ≤ 4096 := by
          have := offsetAfter_le sol rest (off + widthOf a.2.arg_type)
          omega
        rw [packLE_pos buf off (widthOf a.2.arg_type) (val % 2 ^ (8 * widthOf a.2.arg_type)) hw]
        exact ih _ _ hcap
      | none =>
        simp only [hlk] at hcap ⊢
        exact ih buf _ hcap

theorem materialize_length (buf : Nat → Nat) (off : Nat) :
    (materialize buf off).length = min (max off 1024) 4096 := by
  simp [materialize]

theorem materialize_get?_lt (buf : Nat → Nat) (off p : Nat)
    (hp : p < min (max off 1024) 4096) :
    (materialize buf off).get? p = some (buf p) := by
  unfold materialize
  rw [List.get?_map, List.get?_range hp]
  rfl

theorem materialize_get?_ge (buf : Nat → Nat) (off p : Nat)
    (hp : min (max off 1024) 4096 ≤ p) :
    (materialize buf off).get? p = none := by
  rw [List.get?_eq_none]
  rw [materialize_length]
  exact hp

theorem nullCs_type (fname : String) (i : Nat) (line : List Char) :
    ∀ c ∈ nullCs fname i line, c.constraint_type = ConstraintType.null := by
  intro c hc
  unfold nullCs at hc
  split at hc
  · cases h : searchM nullMatchAt line with
    | some w =>
      rw [h] at hc
      rcases List.mem_singleton.mp hc with rfl
      rfl
    | none =>
      rw [h] at hc
      exact absurd hc (List.not_mem_nil c)
  · exact absurd hc (List.not_mem_nil c)

theorem compCsOne_type (fname : String) (i : Nat) (line : List Char)
    (op : List Char) (ct : ConstraintType) :
    ∀ c ∈ compCsOne fname i line op ct, c.constraint_type = ct := by
  intro c hc
  unfold compCsOne at hc
  split at hc
  · cases h : searchM (compMatchAt op) line with
    | some wv =>
      simp only [h] at hc
      cases h2 : parseIntBase0 wv.2 with
      | some n =>
        simp only [h2] at hc
        rcases List.mem_singleton.mp hc with rfl
        rfl
      | none =>
        simp only [h2] at hc
        exact absurd hc (List.not_mem_nil c)
    | none =>
      simp only [h] at hc
      exact absurd hc (List.not_mem_nil c)
  · exact absurd hc (List.not_mem_nil c)

theorem compCs_not_flag (fname : String) (i : Nat) (line : List Char) :
    ∀ c ∈ compCs fname i line, c.constraint_type ≠ ConstraintType.flag := by
  intro c hc
  unfold compCs at hc
  rw [List.mem_flatten] at hc
  obtain ⟨l, hl, hcl⟩ := hc
  rw [List.mem_map] at hl
  obtain ⟨oc, hoc, rfl⟩ := hl
  have htype := compCsOne_type fname i line oc.1 oc.2 c hcl
  fin_cases hoc <;> (rw [htype]; decide)

theorem pathLoop_spec (oracle : List PathConstraint → Option (String → Nat))
    (fd : FuncData) :
    ∀ (l : List (Nat × ExecutionPath)) (arts : List (String × List Nat))
      (count : Nat) (arts2 : List (String × List Nat)) (count2 : Nat),
      pathLoop oracle fd l arts count = some (arts2, count2) →
      arts2 = arts ++ l.filterMap (artOf oracle fd) ∧
      count2 = count + (l.filterMap (artOf oracle fd)).length := by
  intro l
  induction l with
  | nil =>
    intro arts count arts2 count2 h
    rw [pathLoop] at h
    cases h
    simp [List.filterMap]
  | cons ip rest ih =>
    intro arts count arts2 count2 h
    rw [pathLoop] at h
    rw [List.filterMap_cons]
    cases hs : pathSolve oracle ip.2 with
    | none =>
      simp only [hs] at h
      have ha : artOf oracle fd ip = none := by
        unfold artOf
        rw [hs]
      rw [ha]
      exact ih _ _ _ _ h
    | some sol =>
      simp only [hs] at h
      by_cases he : sol.isEmpty
      · rw [if_pos he] at h
        have ha : artOf oracle fd ip = none := by
          unfold artOf
          simp only [hs, if_pos he]
        rw [ha]
        exact ih _ _ _ _ h
      · rw [if_neg he] at h
        cases hb : sol_to_bytes sol fd with
        | none =>
          rw [hb] at h
          cases h
        | some data =>
          rw [hb] at h
          have ha : artOf oracle fd ip =
              some (fd.Function ++ "_p" ++ toString ip.1 ++ ".bin", data) := by
            unfold artOf
            simp only [hs, if_neg he, hb]
            rfl
          rw [ha]
          obtain ⟨h1, h2⟩ := ih _ _ _ _ h
          constructor
          · rw [h1]
            simp
          · rw [h2]
            simp only [List.length_cons]
            omega

theorem genLoop_spec (oracle : List PathConstraint → Option (String → Nat))
    (cache : String → List PathConstraint) (N : Nat) :
    ∀ (fds : List FuncData) (arts : List (String × List Nat)) (count : Nat)
      (arts2 : List (String × List Nat)) (count2 : Nat),
      genLoop oracle cache N fds arts count = some (arts2, count2) →
      arts2 = arts ++ fds.flatMap (expectedArtifacts oracle cache N) ∧
      count2 = count + (fds.flatMap (expectedArtifacts oracle cache N)).length := by
  intro fds
  induction fds with
  | nil =>
    intro arts count arts2 count2 h
    rw [genLoop] at h
    cases h
    simp
  | cons fd rest ih =>
    intro arts count arts2 count2 h
    rw [genLoop] at h
    rw [List.flatMap_cons]
    by_cases hf : fd.Function = ""
    · rw [if_pos hf] at h
      have he : expectedArtifacts oracle cache N fd = [] := by
        unfold expectedArtifacts
        rw [if_pos hf]
      rw [he]
      simpa using ih _ _ _ _ h
    · rw [if_neg hf] at h
      by_cases hc : (cache fd.Function).isEmpty
      · rw [if_pos hc] at h
        have he : expectedArtifacts oracle cache N fd = [] := by
          unfold expectedArtifacts
          rw [if_neg hf, if_pos hc]
        rw [he]
        simpa using ih _ _ _ _ h
      · rw [if_neg hc] at h
        cases hp : pathLoop oracle fd (gen_paths (cache fd.Function) N).enum
            arts count with
        | none =>
          rw [hp] at h
          cases h
        | some r =>
          rw [hp] at h
          obtain ⟨hp1, hp2⟩ := pathLoop_spec oracle fd _ _ _ _ _ hp
          obtain ⟨hr1, hr2⟩ := ih _ _ _ _ h
          have he : expectedArtifacts oracle cache N fd =
              (gen_paths (cache fd.Function) N).enum.filterMap (artOf oracle fd) := by
            unfold expectedArtifacts
            rw [if_neg hf, if_neg hc]
          constructor
          · rw [hr1, hp1, he]
            simp
          · rw [hr2, hp2, he]
            simp only [List.length_append]
            omega

/-! ## Claim theorems, witnesses and counterexamples -/

/-- Claim C4 is false as stated: the code has no capacity check before
`struct.pack_into`, so a manifest whose cumulative offset reaches the
4096-byte capacity and then must write a present variable raises
`struct.error` instead of silently skipping; no buffer is returned. Here
512 placeholder advances (absent variable) exhaust the capacity and the
513th argument, whose variable is present, crashes the encoder. -/
theorem sol_to_bytes_capacity_cex :
    sol_to_bytes [("X", 1)]
      (FuncData.mk "F"
        (List.replicate 512 ("a", ArgInfo.mk "IN" "absent" "UINT64") ++
          [("z", ArgInfo.mk "IN" "X" "UINT32")])) = none := by
  decide

/-- Claim C4 (amended): encoding never wraps offsets (the cumulative
offset only grows) and, whenever the final cumulative offset fits the
4096-byte capacity, encoding completes without error and returns a
buffer of length `min (max offset 1024) 4096`; but a write whose slot
would exceed the capacity aborts the encoding with an error instead of
being silently skipped (see `sol_to_bytes_capacity_cex`). -/
theorem sol_to_bytes_capacity (sol : List (String × Nat)) (fd : FuncData)
    (hfit : offsetAfter sol fd.Arguments 0 ≤ 4096) :
    (∃ l, sol_to_bytes sol fd = some l ∧
      l.length = min (max (offsetAfter sol fd.Arguments 0) 1024) 4096) ∧
    (∀ (args : List (String × ArgInfo)) (off : Nat),
      off ≤ offsetAfter sol args off) := by
  constructor
  · obtain ⟨b, hb⟩ := solToBytesLoop_total sol fd.Arguments (fun _ => 0) 0 hfit
    refine ⟨materialize b (offsetAfter sol fd.Arguments 0), ?_, materialize_length _ _⟩
    unfold sol_to_bytes
    rw [hb]
    rfl
  · exact offsetAfter_le sol

/-- Witness for the amended C4 at a concrete input. -/
theorem sol_to_bytes_capacity_witness :
    (∃ l, sol_to_bytes [("X", 5)]
        (FuncData.mk "F" [("a", ArgInfo.mk "IN" "X" "UINT32")]) = some l ∧
      l.length = min (max (offsetAfter [("X", 5)]
        [("a", ArgInfo.mk "IN" "X" "UINT32")] 0) 1024) 4096) ∧
    (∀ (args : List (String × ArgInfo)) (off : Nat),
      off ≤ offsetAfter [("X", 5)] args off) :=
  sol_to_bytes_capacity [("X", 5)]
    (FuncData.mk "F" [("a", ArgInfo.mk "IN" "X" "UINT32")]) (by decide)

/-- Claim C1 is false as stated: the placeholder for an absent variable is
always 8 bytes, while a present 32-bit argument occupies only 4, so
removing a mid-manifest 32-bit argument's variable shifts every
subsequent argument's offset by 4. Concretely, with arguments
`P (32-bit), A (32-bit), B (32-bit)` and assignments
`{P≔9, A≔1, B≔2}` versus `{P≔9, B≔2}`, the byte at position 12 — outside
`A`'s 8-byte slot `[4, 12)` — is `0` in the first encoding but `2` (the
start of `B`'s value, now written at offset 12 instead of 8) in the
second. -/
theorem sol_to_bytes_offset_stability_cex :
    (sol_to_bytes [("P", 9), ("A", 1), ("B", 2)]
      (FuncData.mk "F"
        [("a1", ArgInfo.mk "IN" "P" "UINT32"),
         ("a2", ArgInfo.mk "IN" "A" "UINT32"),
         ("a3", ArgInfo.mk "IN" "B" "UINT32")])).map (fun l => l.get? 12) =
      some (some 0) ∧
    (sol_to_bytes [("P", 9), ("B", 2)]
      (FuncData.mk "F"
        [("a1", ArgInfo.mk "IN" "P" "UINT32"),
         ("a2", ArgInfo.mk "IN" "A" "UINT32"),
         ("a3", ArgInfo.mk "IN" "B" "UINT32")])).map (fun l => l.get? 12) =
      some (some 2) ∧
    removeKey "A" [("P", 9), ("A", 1), ("B", 2)] = [("P", 9), ("B", 2)] := by
  refine ⟨by decide, by decide, by decide⟩

/-- Claim C1 (amended): the offset-stability property holds when the
toggled mid-manifest IN argument's width-hint denotes 64 bits (so that
the written width equals the 8-byte placeholder) and its backing
variable backs no other argument of the manifest. Then, provided the
encoding with the variable present succeeds, the encoding with it absent
also succeeds; the two buffers have the same length, agree at every
position outside the argument's 8-byte slot, the slot holds the
little-endian value when present and the zero placeholder bytes when
absent, and every subsequent argument is processed at the same offset in
both encodings. -/
theorem sol_to_bytes_offset_stability
    (pre post : List (String × ArgInfo)) (an fname : String) (info : ArgInfo)
    (sol : List (String × Nat)) (val : Nat)
    (hdir : info.arg_dir = "IN")
    (h64 : strContains info.arg_type "64" = true)
    (hpre : ∀ a ∈ pre, a.2.variable_ ≠ info.variable_)
    (hpost : ∀ a ∈ post, a.2.variable_ ≠ info.variable_)
    (hsol : lookupNat info.variable_ sol = some val)
    (h1 : (sol_to_bytes sol
      (FuncData.mk fname (pre ++ (an, info) :: post))).isSome = true) :
    ((sol_to_bytes (removeKey info.variable_ sol)
        (FuncData.mk fname (pre ++ (an, info) :: post))).isSome = true) ∧
    ((sol_to_bytes sol (FuncData.mk fname (pre ++ (an, info) :: post))).getD []).length =
      ((sol_to_bytes (removeKey info.variable_ sol)
        (FuncData.mk fname (pre ++ (an, info) :: post))).getD []).length ∧
    (∀ p, p < offsetAfter sol pre 0 ∨ offsetAfter sol pre 0 + 8 ≤ p →
      ((sol_to_bytes sol (FuncData.mk fname (pre ++ (an, info) :: post))).getD []).get? p =
      ((sol_to_bytes (removeKey info.variable_ sol)
        (FuncData.mk fname (pre ++ (an, info) :: post))).getD []).get? p) ∧
    (∀ k, k < 8 →
      ((sol_to_bytes sol (FuncData.mk fname (pre ++ (an, info) :: post))).getD []).get?
          (offsetAfter sol pre 0 + k) = some (val % 2 ^ 64 / 256 ^ k % 256) ∧
      ((sol_to_bytes (removeKey info.variable_ sol)
        (FuncData.mk fname (pre ++ (an, info) :: post))).getD []).get?
          (offsetAfter sol pre 0 + k) = some 0) ∧
    argOffsets sol post (offsetAfter sol pre 0 + 8) =
      argOffsets (removeKey info.variable_ sol) post (offsetAfter sol pre 0 + 8) := by
  have hw8 : widthOf info.arg_type = 8 := by
    simp [widthOf, h64]
  -- Unpack the successful run with the variable present.
  cases hL1 : solToBytesLoop sol (pre ++ (an, info) :: post) (fun _ => 0) 0 with
  | none =>
    unfold sol_to_bytes at h1
    rw [hL1] at h1
    exact Bool.noConfusion h1
  | some r1 =>
    obtain ⟨b1, o1⟩ := r1
    have hfull := hL1
    rw [solToBytesLoop_append] at hL1
    cases hpreL : solToBytesLoop sol pre (fun _ => 0) 0 with
    | none => rw [hpreL] at hL1; cases hL1
    | some rB =>
      obtain ⟨B, opre⟩ := rB
      rw [hpreL] at hL1
      have hstep : solToBytesLoop sol ((an, info) :: post) B opre = some (b1, o1) := hL1
      have hopre : opre = offsetAfter sol pre 0 :=
        solToBytesLoop_offset sol pre _ _ _ _ hpreL
      -- Reduce the step for the toggled argument, present case.
      rw [solToBytesLoop] at hstep
      have hdir' : ¬((an, info).2.arg_dir ≠ "IN") := by simp [hdir]
      rw [if_neg hdir'] at hstep
      have hlk1 : lookupNat (an, info).2.variable_ sol = some val := hsol
      simp only [hlk1, hw8] at hstep
      cases hpk : packLE B opre 8 (val % 2 ^ (8 * 8)) with
      | none => rw [hpk] at hstep; cases hstep
      | some B1 =>
        rw [hpk] at hstep
        obtain ⟨hcap, hB1⟩ := packLE_some _ _ _ _ _ hpk
        -- hstep : loop over post from B1, opre+8 gives (b1, o1)
        -- Run with the variable absent, sharing the same prefix.
        have hpreL2 : solToBytesLoop (removeKey info.variable_ sol) pre (fun _ => 0) 0 =
            some (B, opre) := by
          rw [solToBytesLoop_irrel sol info.variable_ pre _ _ hpre]
          exact hpreL
        obtain ⟨b2, hpostL2, hpt⟩ :=
          solToBytesLoop_congr sol post B1 (opre + 8) b1 o1 hstep B
        have ho1 : o1 = offsetAfter sol post (opre + 8) :=
          solToBytesLoop_offset sol post _ _ _ _ hstep
        have hL2 : solToBytesLoop (removeKey info.variable_ sol)
            (pre ++ (an, info) :: post) (fun _ => 0) 0 = some (b2, o1) := by
          rw [solToBytesLoop_append, hpreL2]
          show solToBytesLoop (removeKey info.variable_ sol)
            ((an, info) :: post) B opre = some (b2, o1)
          rw [solToBytesLoop]
          rw [if_neg hdir']
          have hlk2 : lookupNat (an, info).2.variable_ (removeKey info.variable_ sol) = none :=
            lookupNat_removeKey_self info.variable_ sol
          simp only [hlk2]
          rw [solToBytesLoop_irrel sol info.variable_ post _ _ hpost]
          exact hpostL2
        -- Pointwise relationship between the two final buffers.
        have hB1B : ∀ p, p < opre ∨ opre + 8 ≤ p → B1 p = B p := by
          intro p hp
          rw [hB1]
          exact writeBytes_outside 8 B opre _ p hp
        have hb12 : ∀ p, p < opre ∨ opre + 8 ≤ p → b1 p = b2 p := by
          intro p hp
          exact hpt p (hB1B p hp)
        have ho1ge : opre + 8 ≤ o1 := by
          rw [ho1]
          exact offsetAfter_le sol post (opre + 8)
        -- Materialized results.
        have hm1 : sol_to_bytes sol (FuncData.mk fname (pre ++ (an, info) :: post)) =
            some (materialize b1 o1) := by
          show (solToBytesLoop sol (pre ++ (an, info) :: post) (fun _ => 0) 0).map
            (fun r => materialize r.1 r.2) = some (materialize b1 o1)
          rw [hfull]
          rfl
        have hm2 : sol_to_bytes (removeKey info.variable_ sol)
            (FuncData.mk fname (pre ++ (an, info) :: post)) =
            some (materialize b2 o1) := by
          show (solToBytesLoop (removeKey info.variable_ sol)
            (pre ++ (an, info) :: post) (fun _ => 0) 0).map
            (fun r => materialize r.1 r.2) = some (materialize b2 o1)
          rw [hL2]
          rfl
        have hlen : min (max o1 1024) 4096 = (materialize b1 o1).length := by
          rw [materialize_length]
        refine ⟨?_, ?_, ?_, ?_, ?_⟩
        · rw [hm2]
          rfl
        · rw [hm1, hm2]
          simp only [Option.getD_some]
          rw [materialize_length, materialize_length]
        · intro p hp
          rw [hm1, hm2]
          simp only [Option.getD_some]
          rw [← hopre] at hp
          by_cases hplen : p < min (max o1 1024) 4096
          · rw [materialize_get?_lt b1 o1 p hplen, materialize_get?_lt b2 o1 p hplen]
            rw [hb12 p hp]
          · rw [materialize_get?_ge b1 o1 p (by omega), materialize_get?_ge b2 o1 p (by omega)]
        · intro k hk
          rw [hm1, hm2]
          simp only [Option.getD_some]
          rw [← hopre]
          have hklen : opre + k < min (max o1 1024) 4096 := by
            have h1024 : opre + 8 ≤ max o1 1024 := by
              have := Nat.le_max_left o1 1024
              omega
            omega
          rw [materialize_get?_lt b1 o1 _ hklen, materialize_get?_lt b2 o1 _ hklen]
          constructor
          · have hfr1 : b1 (opre + k) = B1 (opre + k) :=
              solToBytesLoop_frame sol post B1 (opre + 8) b1 o1 hstep _ (Or.inl (by omega))
            rw [hfr1, hB1]
            rw [writeBytes_at 8 k B opre _ hk]
          · have hfr2 : b2 (opre + k) = B (opre + k) :=
              solToBytesLoop_frame sol post B (opre + 8) b2 o1 hpostL2 _ (Or.inl (by omega))
            have hfr3 : B (opre + k) = (fun _ => 0) (opre + k) :=
              solToBytesLoop_frame sol pre (fun _ => 0) 0 B opre hpreL _ (Or.inr (by omega))
            rw [hfr2, hfr3]
        · rw [← hopre]
          rw [argOffsets_irrel sol info.variable_ post _ hpost]

/-- Witness for the amended C1: a three-argument manifest whose middle
argument is 64-bit and toggled. -/
theorem sol_to_bytes_offset_stability_witness :
    ((sol_to_bytes (removeKey "A" [("P", 9), ("A", 1), ("B", 2)])
        (FuncData.mk "F" ([("a1", ArgInfo.mk "IN" "P" "UINT32")] ++
          ("a2", ArgInfo.mk "IN" "A" "UINT64") ::
          [("a3", ArgInfo.mk "IN" "B" "UINT32")]))).isSome = true) ∧
    ((sol_to_bytes [("P", 9), ("A", 1), ("B", 2)]
      (FuncData.mk "F" ([("a1", ArgInfo.mk "IN" "P" "UINT32")] ++
        ("a2", ArgInfo.mk "IN" "A" "UINT64") ::
        [("a3", ArgInfo.mk "IN" "B" "UINT32")]))).getD []).length =
      ((sol_to_bytes (removeKey "A" [("P", 9), ("A", 1), ("B", 2)])
        (FuncData.mk "F" ([("a1", ArgInfo.mk "IN" "P" "UINT32")] ++
          ("a2", ArgInfo.mk "IN" "A" "UINT64") ::
          [("a3", ArgInfo.mk "IN" "B" "UINT32")]))).getD []).length ∧
    (∀ p, p < offsetAfter [("P", 9), ("A", 1), ("B", 2)] [("a1", ArgInfo.mk "IN" "P" "UINT32")] 0 ∨
        offsetAfter [("P", 9), ("A", 1), ("B", 2)] [("a1", ArgInfo.mk "IN" "P" "UINT32")] 0 + 8 ≤ p →
      ((sol_to_bytes [("P", 9), ("A", 1), ("B", 2)]
        (FuncData.mk "F" ([("a1", ArgInfo.mk "IN" "P" "UINT32")] ++
          ("a2", ArgInfo.mk "IN" "A" "UINT64") ::
          [("a3", ArgInfo.mk "IN" "B" "UINT32")]))).getD []).get? p =
      ((sol_to_bytes (removeKey "A" [("P", 9), ("A", 1), ("B", 2)])
        (FuncData.mk "F" ([("a1", ArgInfo.mk "IN" "P" "UINT32")] ++
          ("a2", ArgInfo.mk "IN" "A" "UINT64") ::
          [("a3", ArgInfo.mk "IN" "B" "UINT32")]))).getD []).get? p) ∧
    (∀ k, k < 8 →
      ((sol_to_bytes [("P", 9), ("A", 1), ("B", 2)]
        (FuncData.mk "F" ([("a1", ArgInfo.mk "IN" "P" "UINT32")] ++
          ("a2", ArgInfo.mk "IN" "A" "UINT64") ::
          [("a3", ArgInfo.mk "IN" "B" "UINT32")]))).getD []).get?
          (offsetAfter [("P", 9), ("A", 1), ("B", 2)] [("a1", ArgInfo.mk "IN" "P" "UINT32")] 0 + k) =
        some (1 % 2 ^ 64 / 256 ^ k % 256) ∧
      ((sol_to_bytes (removeKey "A" [("P", 9), ("A", 1), ("B", 2)])
        (FuncData.mk "F" ([("a1", ArgInfo.mk "IN" "P" "UINT32")] ++
          ("a2", ArgInfo.mk "IN" "A" "UINT64") ::
          [("a3", ArgInfo.mk "IN" "B" "UINT32")]))).getD []).get?
          (offsetAfter [("P", 9), ("A", 1), ("B", 2)] [("a1", ArgInfo.mk "IN" "P" "UINT32")] 0 + k) =
        some 0) ∧
    argOffsets [("P", 9), ("A", 1), ("B", 2)] [("a3", ArgInfo.mk "IN" "B" "UINT32")]
        (offsetAfter [("P", 9), ("A", 1), ("B", 2)] [("a1", ArgInfo.mk "IN" "P" "UINT32")] 0 + 8) =
      argOffsets (removeKey "A" [("P", 9), ("A", 1), ("B", 2)])
        [("a3", ArgInfo.mk "IN" "B" "UINT32")]
        (offsetAfter [("P", 9), ("A", 1), ("B", 2)] [("a1", ArgInfo.mk "IN" "P" "UINT32")] 0 + 8) :=
  sol_to_bytes_offset_stability
    [("a1", ArgInfo.mk "IN" "P" "UINT32")] [("a3", ArgInfo.mk "IN" "B" "UINT32")]
    "a2" "F" (ArgInfo.mk "IN" "A" "UINT64")
    [("P", 9), ("A", 1), ("B", 2)] 1
    (by decide) (by decide) (by decide) (by decide) (by decide) (by decide)

/-- Claim C9 (Scenario A): predicates `[NonNull("P"), Greater("Len", 0)]`
with budget 10 produce exactly the three paths — straight-line, flip of
predicate 0 (a self-fixed-point, subsequent predicate dropped), and
`[NonNull("P"), LessOrEqual("Len", 0)]`; and encoding `P = 1, Len = 1`
against two 32-bit IN arguments backed by `P` and `Len` yields a buffer
whose first 8 bytes are `01 00 00 00 01 00 00 00`. -/
theorem scenario_a :
    gen_paths
      [PathConstraint.mk "P" ConstraintType.null none "",
       PathConstraint.mk "Len" ConstraintType.gt (some 0) ""] 10 =
      [ExecutionPath.mk
        [PathConstraint.mk "P" ConstraintType.null none "",
         PathConstraint.mk "Len" ConstraintType.gt (some 0) ""],
       ExecutionPath.mk [PathConstraint.mk "P" ConstraintType.null none ""],
       ExecutionPath.mk
        [PathConstraint.mk "P" ConstraintType.null none "",
         PathConstraint.mk "Len" ConstraintType.le (some 0) ""]] ∧
    (sol_to_bytes [("P", 1), ("Len", 1)]
      (FuncData.mk "F"
        [("Arg1", ArgInfo.mk "IN" "P" "UINT32"),
         ("Arg2", ArgInfo.mk "IN" "Len" "UINT32")])).map
      (fun l => l.take 8) = some [1, 0, 0, 0, 1, 0, 0, 0] := by
  constructor
  · decide
  · decide

/-! ## Theorems for claims C8 and C2 -/

/-- Claim C8: for every predicate `p`, `negate (negate p) = p`; negation swaps
`Equal` with `NotEqual`, `Less` with `GreaterOrEqual`, `Greater` with
`LessOrEqual`, maps `NonNull` (`null`) and `BitmaskSet` (`flag`) to
themselves, and preserves the variable, operand and origin fields. -/
theorem negate_involution (c : PathConstraint) :
    negate (negate c) = c ∧
    (negate c).var_name = c.var_name ∧
    (negate c).value = c.value ∧
    (negate c).location = c.location ∧
    (c.constraint_type = ConstraintType.eq →
      (negate c).constraint_type = ConstraintType.neq) ∧
    (c.constraint_type = ConstraintType.neq →
      (negate c).constraint_type = ConstraintType.eq) ∧
    (c.constraint_type = ConstraintType.lt →
      (negate c).constraint_type = ConstraintType.ge) ∧
    (c.constraint_type = ConstraintType.ge →
      (negate c).constraint_type = ConstraintType.lt) ∧
    (c.constraint_type = ConstraintType.gt →
      (negate c).constraint_type = ConstraintType.le) ∧
    (c.constraint_type = ConstraintType.le →
      (negate c).constraint_type = ConstraintType.gt) ∧
    (c.constraint_type = ConstraintType.null →
      (negate c).constraint_type = ConstraintType.null) ∧
    (c.constraint_type = ConstraintType.flag →
      (negate c).constraint_type = ConstraintType.flag) := by
  obtain ⟨v, t, x, l⟩ := c
  cases t <;> simp [negate, negMapGet]

/-- Claim C2: for a predicate list `C` with `n` entries and budget `N ≥ 1`,
`_gen_paths` returns exactly `min (n+1) N` paths; path 0 is the full
unmodified list, and path `i+1` (when produced, i.e. `i < n` and `i+2 ≤ N`)
is the predicates before index `i` followed by the negation of predicate `i`,
with all later predicates dropped. -/
theorem gen_paths_spec (C : List PathConstraint) (N : Nat) (hN : 1 ≤ N) :
    (gen_paths C N).length = min (C.length + 1) N ∧
    (gen_paths C N).get? 0 = some (ExecutionPath.mk C) ∧
    ∀ i c, C.get? i = some c → i + 2 ≤ N →
      (gen_paths C N).get? (i + 1) =
        some (ExecutionPath.mk (C.take i ++ [negate c])) := by
  have hrepr : gen_paths C N =
      ExecutionPath.mk C :: flipTail C 0 (N - 1) C := by
    unfold gen_paths
    rw [genPathsLoop_eq_flipTail]
    simp
  refine ⟨?_, ?_, ?_⟩
  · rw [hrepr]
    simp [flipTail_length]
    omega
  · rw [hrepr]; rfl
  · intro i c hc hi
    rw [hrepr]
    simp only [List.get?_cons_succ]
    have := flipTail_get? C C 0 (N - 1) i c hc (by omega)
    simpa using this

/-- Claim C3: whenever the solver adapter reports a path satisfiable
(the oracle being sound for the `to_z3` translation, as z3 is),
substituting the returned assignment into every predicate of the path
satisfies it; in particular a path containing `Greater("Len", 0)` never
gets back the value `Len = 0`. -/
theorem solve_round_trip
    (oracle : List PathConstraint → Option (String → Nat))
    (hsound : ∀ cs m, oracle cs = some m →
      ∀ c ∈ cs, constraintHolds m c = true)
    (p : ExecutionPath) (sol : List (String × Nat))
    (hs : pathSolve oracle p = some sol) :
    (∀ c ∈ p.constraints,
      constraintHolds (fun x => (lookupNat x sol).getD 0) c = true) ∧
    (∀ loc : String,
      PathConstraint.mk "Len" ConstraintType.gt (some 0) loc ∈ p.constraints →
      lookupNat "Len" sol ≠ some 0) := by
  unfold pathSolve at hs
  cases hm : oracle p.constraints with
  | none => rw [hm] at hs; simp at hs
  | some m =>
    rw [hm] at hs
    rw [show (some m).map (fun mm => (pathVars p.constraints).map (fun v => (v, mm v))) =
      some ((pathVars p.constraints).map (fun v => (v, m v))) from rfl] at hs
    rw [Option.some.injEq] at hs
    have hsol : sol = (pathVars p.constraints).map (fun v => (v, m v)) := by
      exact hs.symm
    have hlook : ∀ c ∈ p.constraints,
        lookupNat c.var_name sol = some (m c.var_name) := by
      intro c hc
      rw [hsol]
      exact lookupNat_map_self m c.var_name _
        (var_mem_pathVarsAux c p.constraints [] hc)
    constructor
    · intro c hc
      have hold := hsound p.constraints m hm c hc
      have hval : (fun x => (lookupNat x sol).getD 0) c.var_name = m c.var_name := by
        simp [hlook c hc]
      unfold constraintHolds at hold ⊢
      rw [hval]
      exact hold
    · intro loc hmem heq
      have hold := hsound p.constraints m hm _ hmem
      have hlk := hlook _ hmem
      change lookupNat "Len" sol = some (m "Len") at hlk
      rw [hlk] at heq
      have hm0 : m "Len" = 0 := by
        injection heq
      unfold constraintHolds at hold
      simp only [hm0] at hold
      norm_num [bvVal, toSigned] at hold

/-- Witness for C3: a concrete sound oracle answering only the path
`[Greater("Len", 0)]` with the model `Len = 6`. -/
theorem solve_round_trip_witness :
    (∀ c ∈ (ExecutionPath.mk [PathConstraint.mk "Len" ConstraintType.gt (some 0) "f:0"]).constraints,
      constraintHolds
        (fun x => (lookupNat x [("Len", 6)]).getD 0) c = true) ∧
    (∀ loc : String,
      PathConstraint.mk "Len" ConstraintType.gt (some 0) loc ∈
        (ExecutionPath.mk [PathConstraint.mk "Len" ConstraintType.gt (some 0) "f:0"]).constraints →
      lookupNat "Len" [("Len", 6)] ≠ some 0) := by
  refine solve_round_trip
    (fun cs => if cs = [PathConstraint.mk "Len" ConstraintType.gt (some 0) "f:0"]
      then some (fun x => if x = "Len" then 6 else 0) else none)
    ?_ _ _ ?_
  · intro cs m h
    by_cases hcs : cs = [PathConstraint.mk "Len" ConstraintType.gt (some 0) "f:0"]
    · subst hcs
      simp only [if_pos rfl] at h
      cases h
      intro c hc
      rcases List.mem_singleton.mp hc with rfl
      decide
    · simp [hcs] at h
  · decide

/-- Witness for C2 at a concrete input: one predicate, budget 2. -/
theorem gen_paths_spec_witness :
    (gen_paths [PathConstraint.mk "x" ConstraintType.eq (some 5) ""] 2).length =
        min ([PathConstraint.mk "x" ConstraintType.eq (some 5) ""].length + 1) 2 ∧
      (gen_paths [PathConstraint.mk "x" ConstraintType.eq (some 5) ""] 2).get? 0 =
        some (ExecutionPath.mk [PathConstraint.mk "x" ConstraintType.eq (some 5) ""]) ∧
      ∀ i c, [PathConstraint.mk "x" ConstraintType.eq (some 5) ""].get? i = some c →
        i + 2 ≤ 2 →
        (gen_paths [PathConstraint.mk "x" ConstraintType.eq (some 5) ""] 2).get? (i + 1) =
          some (ExecutionPath.mk
            ([PathConstraint.mk "x" ConstraintType.eq (some 5) ""].take i ++ [negate c])) :=
  gen_paths_spec [PathConstraint.mk "x" ConstraintType.eq (some 5) ""] 2 (by decide)


/-- Claim C10: when the source file path does not name an existing file,
extraction returns an empty predicate list rather than raising. -/
theorem extract_constraints_missing_file (fs : String → Option String)
    (source_file function_name : String) (h : fs source_file = none) :
    extract_constraints fs source_file function_name = [] := by
  unfold extract_constraints
  rw [h]

/-- Witness for C10 on an empty file system. -/
theorem extract_constraints_missing_file_witness :
    extract_constraints (fun _ => none) "Driver.c" "EfiPxeBcUdpRead" = [] :=
  extract_constraints_missing_file (fun _ => none) "Driver.c" "EfiPxeBcUdpRead" rfl

/-- Claim C6 is false for the never-balancing case: the depth scan has no
check that the braces ever balanced, so an unbalanced body is truncated
at end of text and still scanned. With content `f()\x7b` + newline +
`if (x == 5)` (no closing brace at all) the extraction returns the
`Equal("x", 5)` predicate, not the empty list the claim requires. -/
theorem extract_constraints_miss_cex :
    extract_constraints (fun _ => some "f()\x7b\nif (x == 5)\n") "s.c" "f" =
      [PathConstraint.mk "x" ConstraintType.eq (some 5) "f:1"] ∧
    extract_constraints (fun _ => some "f()\x7b\nif (x == 5)\n") "s.c" "f" ≠
      [] := by
  exact ⟨by decide, by decide⟩

/-- Claim C6 (amended): if the function's definition is not found, or no
opening brace follows the match, extraction returns an empty predicate
list (and, being a total function, never raises); when the braces never
balance the scan instead proceeds on the body truncated at end of text
and may return predicates (see `extract_constraints_miss_cex`), still
without raising. -/
theorem extract_constraints_miss (fs : String → Option String)
    (source_file function_name content : String)
    (hc : fs source_file = some content) :
    (searchM (matchNameParen function_name.toList) content.toList = none →
      extract_constraints fs source_file function_name = []) ∧
    (∀ afterParen,
      searchM (matchNameParen function_name.toList) content.toList =
        some afterParen →
      findBrace afterParen = none →
      extract_constraints fs source_file function_name = []) := by
  constructor
  · intro hsearch
    unfold extract_constraints
    simp only [hc, hsearch]
  · intro afterParen hsearch hbrace
    unfold extract_constraints
    simp only [hc, hsearch, hbrace]

/-- Witness for the amended C6: a source text not containing the target
function, and one containing the name with no `(`-`\x7b` sequence. -/
theorem extract_constraints_miss_witness :
    (searchM (matchNameParen "g".toList) ("hello world".toList) = none →
      extract_constraints (fun _ => some "hello world") "s.c" "g" = []) ∧
    (∀ afterParen,
      searchM (matchNameParen "g".toList) ("hello world".toList) =
        some afterParen →
      findBrace afterParen = none →
      extract_constraints (fun _ => some "hello world") "s.c" "g" = []) :=
  extract_constraints_miss (fun _ => some "hello world") "s.c" "g"
    "hello world" rfl

/-- Claim C7 is false for decimal masks: `val_int = int(val, 16) if
val.startswith('0x') else 0` maps any non-`0x` operand token — including
a decimal literal — to mask `0`, not to its parsed value. With the guard
`if (x & 12)` in the body, the extractor emits `BitmaskSet("x", 0)`, and
no predicate with the parsed mask `12` is emitted. -/
theorem flag_mask_cex :
    extract_constraints
        (fun _ => some "f()\x7b\nif (x & 12) \x7b\x7d\n\x7d") "s.c" "f" =
      [PathConstraint.mk "x" ConstraintType.flag (some 0) "f:1"] ∧
    PathConstraint.mk "x" ConstraintType.flag (some 12) "f:1" ∉
      extract_constraints
        (fun _ => some "f()\x7b\nif (x & 12) \x7b\x7d\n\x7d") "s.c" "f" := by
  exact ⟨by decide, by decide⟩

/-- Claim C7 (amended): on a line passing the bitwise-AND guard conditions
whose matcher yields variable `w` and operand token `v`: a `0x`-prefixed
token that parses emits `BitmaskSet` with the parsed hex mask; a
`0x`-prefixed token that fails hex parsing drops only that predicate
(the line still contributes its NULL/comparison predicates and the scan
continues); and any other token — decimal literals included — emits
`BitmaskSet` with mask `0` rather than the parsed decimal value
(see `flag_mask_cex`). -/
theorem flag_extraction_spec (fname : String) (i : Nat) (rawLine : List Char)
    (w v : List Char)
    (hconds : (hasSub ("if".toList) (stripLine rawLine) &&
      hasSub ("&".toList) (stripLine rawLine) &&
      !hasSub ("&&".toList) (stripLine rawLine)) = true)
    (hmatch : searchM flagMatchAt (stripLine rawLine) = some (w, v)) :
    (∀ n, ("0x".toList).isPrefixOf v = true → parseHex16 v = some n →
      PathConstraint.mk (String.mk w) ConstraintType.flag (some (n : Int))
        (locOf fname i) ∈ lineConstraints fname i rawLine) ∧
    (("0x".toList).isPrefixOf v = true → parseHex16 v = none →
      (∀ c ∈ lineConstraints fname i rawLine,
        c.constraint_type ≠ ConstraintType.flag) ∧
      lineConstraints fname i rawLine =
        nullCs fname i (stripLine rawLine) ++
          compCs fname i (stripLine rawLine)) ∧
    (("0x".toList).isPrefixOf v = false →
      PathConstraint.mk (String.mk w) ConstraintType.flag (some 0)
        (locOf fname i) ∈ lineConstraints fname i rawLine) := by
  have hcond' : (hasSub ("if".toList) (stripLine rawLine) &&
      hasSub ("&".toList) (stripLine rawLine) &&
      !hasSub ("&&".toList) (stripLine rawLine)) = true := hconds
  refine ⟨?_, ?_, ?_⟩
  · intro n hpref hparse
    unfold lineConstraints
    have hflag : flagCs fname i (stripLine rawLine) =
        [PathConstraint.mk (String.mk w) ConstraintType.flag (some (n : Int))
          (locOf fname i)] := by
      unfold flagCs
      rw [if_pos hcond']
      simp only [hmatch, hpref, hparse, if_true]
    rw [hflag]
    simp
  · intro hpref hparse
    have hflag : flagCs fname i (stripLine rawLine) = [] := by
      unfold flagCs
      rw [if_pos hcond']
      simp only [hmatch, hpref, hparse, if_true]
    constructor
    · intro c hcmem
      unfold lineConstraints at hcmem
      rw [hflag, List.append_nil] at hcmem
      rcases List.mem_append.mp hcmem with hnull | hcomp
      · rw [nullCs_type fname i (stripLine rawLine) c hnull]
        decide
      · exact compCs_not_flag fname i (stripLine rawLine) c hcomp
    · unfold lineConstraints
      rw [hflag]
      simp
  · intro hpref
    unfold lineConstraints
    have hflag : flagCs fname i (stripLine rawLine) =
        [PathConstraint.mk (String.mk w) ConstraintType.flag (some 0)
          (locOf fname i)] := by
      unfold flagCs
      rw [if_pos hcond']
      simp only [hmatch, hpref]
      rfl
    rw [hflag]
    simp

/-- Witness for the amended C7: the guards `if (x & 0x3)`, `if (y & 0x)`
(hex parse failure) and `if (z & 12)` (decimal, mask 0). -/
theorem flag_extraction_spec_witness :
    ((∀ n, ("0x".toList).isPrefixOf ("0x3".toList) = true →
      parseHex16 ("0x3".toList) = some n →
      PathConstraint.mk (String.mk ("x".toList)) ConstraintType.flag
        (some (n : Int)) (locOf "f" 4) ∈
        lineConstraints "f" 4 ("if (x & 0x3)".toList)) ∧
    (("0x".toList).isPrefixOf ("0x3".toList) = true →
      parseHex16 ("0x3".toList) = none →
      (∀ c ∈ lineConstraints "f" 4 ("if (x & 0x3)".toList),
        c.constraint_type ≠ ConstraintType.flag) ∧
      lineConstraints "f" 4 ("if (x & 0x3)".toList) =
        nullCs "f" 4 (stripLine ("if (x & 0x3)".toList)) ++
          compCs "f" 4 (stripLine ("if (x & 0x3)".toList))) ∧
    (("0x".toList).isPrefixOf ("0x3".toList) = false →
      PathConstraint.mk (String.mk ("x".toList)) ConstraintType.flag (some 0)
        (locOf "f" 4) ∈ lineConstraints "f" 4 ("if (x & 0x3)".toList))) :=
  flag_extraction_spec "f" 4 ("if (x & 0x3)".toList) ("x".toList)
    ("0x3".toList) (by decide) (by decide)

/-- Claim C5 is false as stated: it promises every manifest entry its
one-artifact-per-solved-path processing unconditionally, but an encoder
`struct.error` (the missing capacity guard established in
`sol_to_bytes_capacity_cex`) propagates out of `generate_inputs` and
aborts the whole batch. Here the first entry's solved path exhausts the
4096-byte capacity and crashes the encoder, so the run returns nothing —
while the second entry alone has two solved, encodable paths that the
claim says must each be persisted as an artifact. -/
theorem generate_inputs_spec_cex :
    generate_inputs (fun _ => some (fun _ => 1))
      [FuncData.mk "F"
        (List.replicate 512 ("a", ArgInfo.mk "IN" "absent" "UINT64") ++
          [("z", ArgInfo.mk "IN" "X" "UINT32")]),
       FuncData.mk "G" [("a", ArgInfo.mk "IN" "X" "UINT32")]]
      (fun _ => [PathConstraint.mk "X" ConstraintType.null none ""]) 100 =
      none ∧
    (expectedArtifacts (fun _ => some (fun _ => 1))
      (fun _ => [PathConstraint.mk "X" ConstraintType.null none ""]) 100
      (FuncData.mk "G" [("a", ArgInfo.mk "IN" "X" "UINT32")])).length = 2 := by
  exact ⟨by decide, by decide⟩

/-- Claim C5 (amended): provided no encoding error aborts the batch (an
encoder `struct.error` propagates and aborts the whole run, starving the
remaining entries — see `generate_inputs_spec_cex`), the batch run takes
each manifest entry's predicate list from the hint registry (the
`constraint_cache`; entries with an empty name or an empty hint list
contribute nothing, and the Extractor is a separate entry point whose
output reaches the run only through that registry), enumerates, solves
and encodes it, persisting exactly one artifact per solved (nonempty)
and encodable path under the deterministic name
`{function}_p{index}.bin`; the reported count equals the number of
artifacts. -/
theorem generate_inputs_spec
    (oracle : List PathConstraint → Option (String → Nat))
    (firness : List FuncData) (cache : String → List PathConstraint) (N : Nat)
    (h : (generate_inputs oracle firness cache N).isSome = true) :
    ((generate_inputs oracle firness cache N).getD ([], 0)).1 =
      firness.flatMap (expectedArtifacts oracle cache N) ∧
    ((generate_inputs oracle firness cache N).getD ([], 0)).2 =
      ((generate_inputs oracle firness cache N).getD ([], 0)).1.length := by
  cases hg : generate_inputs oracle firness cache N with
  | none => rw [hg] at h; exact Bool.noConfusion h
  | some r =>
    obtain ⟨arts2, count2⟩ := r
    unfold generate_inputs at hg
    obtain ⟨h1, h2⟩ := genLoop_spec oracle cache N firness [] 0 arts2 count2 hg
    rw [List.nil_append] at h1
    constructor
    · simpa [Option.getD] using h1
    · simp only [Option.getD_some]
      rw [h2, h1]
      simp

/-- Witness for C5: one function with a single NonNull hint, an oracle
that always answers with the all-ones model; two artifacts result. -/
theorem generate_inputs_spec_witness :
    ((generate_inputs (fun _ => some (fun _ => 1))
        [FuncData.mk "F" [("a", ArgInfo.mk "IN" "X" "UINT32")]]
        (fun f => if f = "F"
          then [PathConstraint.mk "X" ConstraintType.null none ""] else [])
        100).getD ([], 0)).1 =
      [FuncData.mk "F" [("a", ArgInfo.mk "IN" "X" "UINT32")]].flatMap
        (expectedArtifacts (fun _ => some (fun _ => 1))
          (fun f => if f = "F"
            then [PathConstraint.mk "X" ConstraintType.null none ""] else [])
          100) ∧
    ((generate_inputs (fun _ => some (fun _ => 1))
        [FuncData.mk "F" [("a", ArgInfo.mk "IN" "X" "UINT32")]]
        (fun f => if f = "F"
          then [PathConstraint.mk "X" ConstraintType.null none ""] else [])
        100).getD ([], 0)).2 =
      ((generate_inputs (fun _ => some (fun _ => 1))
        [FuncData.mk "F" [("a", ArgInfo.mk "IN" "X" "UINT32")]]
        (fun f => if f = "F"
          then [PathConstraint.mk "X" ConstraintType.null none ""] else [])
        100).getD ([], 0)).1.length :=
  generate_inputs_spec (fun _ => some (fun _ => 1))
    [FuncData.mk "F" [("a", ArgInfo.mk "IN" "X" "UINT32")]]
    (fun f => if f = "F"
      then [PathConstraint.mk "X" ConstraintType.null none ""] else [])
    100 (by decide)
